import Mathlib

/-!
Verification of the Vietnamese OCR text-cleaning pipeline
(`VietnameseTextCleaner.clean_vietnamese_text`, src/python-ocr-service/app.py)
and of the multi-approach Tesseract sweep
(`process_with_tesseract_multi_approach`, src/python-tesseract-service/app.py).

The embedding works on `List Char`.  Python regular-expression substitutions
are modelled by deterministic left-to-right scanners that mirror the
backtracking behaviour of the concrete patterns used in the source (each
pattern's backtracking is finite and is enumerated explicitly).  Python's
`\w`, `\s` and `str.lower()` are modelled exactly on ASCII and on every
non-ASCII character that occurs in the service's own string constants; the
source file stores its Vietnamese string constants double-encoded (the UTF-8
bytes of the intended text re-decoded as Mac-Roman), and all literals below
are transcribed byte-for-byte from the file.
-/

set_option maxRecDepth 4000

/-! ### Character predicates -/

/-- Python's whitespace class `\s` (ASCII part; no non-ASCII whitespace occurs
in this development's repertoire). -/
def isPySpace (c : Char) : Bool :=
  c = ' ' || c = '\t' || c = '\n' || c = '\r' || c = Char.ofNat 11 || c = Char.ofNat 12

def isAsciiAlphanum (c : Char) : Bool :=
  ('a' ≤ c && c ≤ 'z') || ('A' ≤ c && c ≤ 'Z') || ('0' ≤ c && c ≤ '9')

/-- ASCII lower-casing, the fragment of Python's `str.lower()` relevant to the
ASCII-only substitution keys. -/
def toLowerA (c : Char) : Char :=
  if 'A' ≤ c && c ≤ 'Z' then Char.ofNat (c.toNat + 32) else c

def isDigitA (c : Char) : Bool := '0' ≤ c && c ≤ '9'

/-! ### Literals transcribed from src/python-ocr-service/app.py -/

/-- The ordered substitution table `common_mistakes` of `VietnameseTextCleaner`
(src/python-ocr-service/app.py lines 145-182), keys in Python dict insertion order.
The replacement values are transcribed byte-for-byte from the source file, which
stores them double-encoded (UTF-8 bytes of the Vietnamese text re-decoded as
Mac-Roman), e.g. the value for "Ha Noi" is the five-codepoint-garbled form of
the intended accented string. -/
def common_mistakes : List (String × String) := [
  ("CONG HOA XA HOI CHU NGHIA VIET NAM", "C\u00B7\u00AA\u00F2NG H\u221A\u00EDA X\u221A\u00C9 H\u00B7\u00AA\u00F2I CH\u00B7\u00AA\u00B6 NGH\u0192\u00AEA VI\u00B7\u00AA\u00DCT NAM"),
  ("Doc lap Tu do Hanh phuc", "\u0192\u00EA\u00B7\u00AA\u00F4c l\u00B7\u222B\u2260p - T\u00B7\u00AA\u00B1 do - H\u00B7\u222B\u00B0nh ph\u221A\u222Bc"),
  ("CAN CUOC CONG DAN", "C\u0192\u00C7N C\u2206\u00D8\u00B7\u00AA\u00F6C C\u221A\u00EENG D\u221A\u00C7N"),
  ("CCCD", "CCCD"),
  ("Ho va ten", "H\u00B7\u00AA\u00E7 v\u221A\u2020 t\u221A\u2122n"),
  ("Ngay sinh", "Ng\u221A\u2020y sinh"),
  ("Gioi tinh", "Gi\u00B7\u00AA\u00F5i t\u221A\u2260nh"),
  ("Quoc tich", "Qu\u00B7\u00AA\u00EBc t\u00B7\u00AA\u00E3ch"),
  ("Que quan", "Qu\u221A\u2122 qu\u221A\u00B0n"),
  ("Noi thuong tru", "N\u2206\u00B0i th\u2206\u221E\u00B7\u00AA\u00F9ng tr\u221A\u222B"),
  ("Noi cap", "N\u2206\u00B0i c\u00B7\u222B\u2022p"),
  ("Ngay cap", "Ng\u221A\u2020y c\u00B7\u222B\u2022p"),
  ("Co giai han den", "C\u221A\u2265 gi\u221A\u00B0 tr\u00B7\u00AA\u00E3 \u0192\u00EB\u00B7\u222B\u00F8n"),
  ("Ha Noi", "H\u221A\u2020 N\u00B7\u00AA\u00F4i"),
  ("Ho Chi Minh", "H\u00B7\u00AA\u00EC Ch\u221A\u2260 Minh"),
  ("Da Nang", "\u0192\u00EA\u221A\u2020 N\u00B7\u222B\u00B5ng"),
  ("Hai Phong", "H\u00B7\u222B\u00A3i Ph\u221A\u2264ng"),
  ("Can Tho", "C\u00B7\u222B\u00DFn Th\u2206\u00B0"),
  ("Nam Tu Liem", "Nam T\u00B7\u00AA\u00B4 Li\u221A\u2122m"),
  ("Cau Giay", "C\u00B7\u222B\u00DFu Gi\u00B7\u222B\u2022y"),
  ("Dong Da", "\u0192\u00EA\u00B7\u00AA\u00EBng \u0192\u00EAa"),
  ("Ba Dinh", "Ba \u0192\u00EA\u221A\u00A8nh"),
  ("Hoan Kiem", "Ho\u221A\u2020n Ki\u00B7\u222B\u00F8m"),
  ("rn", "m"),
  ("cl", "d"),
  ("fi", "fi"),
  ("fl", "fl"),
  ("0", "O"),
  ("1", "I")]

/-- The literal members of the character class of the noise-removal regex
(src/python-ocr-service/app.py line 211), besides the `\w` and `\s` escapes:
every character a Python regex character class would admit from that pattern,
transcribed byte-for-byte (again double-encoded in the source). -/
def noiseClassChars : List Char := [
  '-', '.', ',', ';', ':', '!', '?', Char.ofNat 8730,
  Char.ofNat 176, Char.ofNat 8224, Char.ofNat 183, Char.ofNat 8747, Char.ofNat 163, Char.ofNat 162, Char.ofNat 8226, Char.ofNat 223,
  Char.ofNat 169, Char.ofNat 180, Char.ofNat 8800, Char.ofNat 402, Char.ofNat 201, Char.ofNat 216, Char.ofNat 177, Char.ofNat 8805,
  Char.ofNat 181, Char.ofNat 8721, Char.ofNat 174, Char.ofNat 170, Char.ofNat 937, Char.ofNat 960, Char.ofNat 8482, Char.ofNat 248,
  Char.ofNat 197, Char.ofNat 214, Char.ofNat 225, Char.ofNat 168, Char.ofNat 226, Char.ofNat 227, Char.ofNat 8804, Char.ofNat 232,
  Char.ofNat 231, Char.ofNat 165, Char.ofNat 235, Char.ofNat 236, Char.ofNat 239, Char.ofNat 243, Char.ofNat 244, Char.ofNat 8710,
  Char.ofNat 245, Char.ofNat 249, Char.ofNat 252, Char.ofNat 8776, Char.ofNat 8734, Char.ofNat 234, '(', ')',
  '/', '"', Char.ofNat 39, Char.ofNat 172, '%', '&', '[', ']']

/-- Python's `\w` covers all Unicode word characters. This list enumerates the
non-ASCII characters occurring in this service's own string constants that
Python classifies as word characters (Unicode letters); the embedding's
word-character predicate is exact on ASCII and on every character that can occur
in the pipeline's substitution values. -/
def uniWordChars : List Char := [
  Char.ofNat 170, Char.ofNat 181, Char.ofNat 199, Char.ofNat 201, Char.ofNat 216, Char.ofNat 220, Char.ofNat 223, Char.ofNat 227,
  Char.ofNat 231, Char.ofNat 234, Char.ofNat 235, Char.ofNat 236, Char.ofNat 237, Char.ofNat 238, Char.ofNat 242, Char.ofNat 244,
  Char.ofNat 245, Char.ofNat 246, Char.ofNat 248, Char.ofNat 249, Char.ofNat 402]

/-- The (double-encoded) arrow glyph in the per-substitution log message of
step 4 (src/python-ocr-service/app.py line 218). -/
def fixArrow : String := "\u201A\u00DC\u00ED"

/-- Python's `\w` (word character), exact on ASCII and on the non-ASCII
characters that occur in this service's constants. -/
def isWordChar (c : Char) : Bool :=
  isAsciiAlphanum c || c = '_' || uniWordChars.contains c

/-- Membership in the allow-list of the noise-removal character class
`[^\w\s\-.,;:!?...()/"\x27...%&\[\]]` of line 211. -/
def isAllowedChar (c : Char) : Bool :=
  isWordChar c || isPySpace c || noiseClassChars.contains c

/-! ### Generic substitution scanner -/

/-- Left-to-right `re.sub` scanner: at each position the matcher either
recognises a match, returning the replacement text and the matched length
(always at least 1 for the matchers below), or fails, in which case one
character is copied.  Replacements are not rescanned, matching Python's
`re.sub`.  The fuel argument bounds recursion; every caller passes the input
length, which suffices because each step consumes at least one character. -/
def subScan (m : List Char → Option (List Char × Nat)) : Nat → List Char → List Char
  | 0, _ => []
  | _ + 1, [] => []
  | fuel + 1, c :: cs =>
    match m (c :: cs) with
    | some (rep, len) => rep ++ subScan m fuel ((c :: cs).drop len)
    | none => c :: subScan m fuel cs

/-! ### Whitespace handling: `str.strip()` and `re.sub(r'\s+', ' ', ...)` -/

/-- Collapse every whitespace run to a single space (step 3a).  The flag
records whether the scanner is inside a run whose single space has already
been emitted. -/
def collapseGo : List Char → Bool → List Char
  | [], _ => []
  | c :: cs, inRun =>
    if isPySpace c then
      if inRun then collapseGo cs true else ' ' :: collapseGo cs true
    else c :: collapseGo cs false

def collapseWs (s : List Char) : List Char := collapseGo s false

/-- Remove trailing Python whitespace. -/
def trimRight : List Char → List Char
  | [] => []
  | c :: cs =>
    let r := trimRight cs
    if r.isEmpty then (if isPySpace c then [] else [c]) else c :: r

/-- Python `str.strip()`. -/
def pyStrip (s : List Char) : List Char :=
  trimRight (s.dropWhile isPySpace)

/-! ### The two newline substitutions (steps 3b and 8b) -/

/-- Index of the last newline inside the leading whitespace run, if any:
the backtracking target of `\s*` in `\n\s*\n` / `\n\s*\n+`. -/
def lastNlInRun : List Char → Option Nat
  | [] => none
  | c :: cs =>
    if isPySpace c then
      match lastNlInRun cs with
      | some k => some (k + 1)
      | none => if c = '\n' then some 0 else none
    else none

/-- Matcher of `re.sub(r'\n\s*\n', '\n', ...)` (step 3b). -/
def nnMatcher1 (s : List Char) : Option (List Char × Nat) :=
  match s with
  | [] => none
  | c :: rest =>
    if c = '\n' then
      match lastNlInRun rest with
      | some k => some (['\n'], k + 2)
      | none => none
    else none

/-- Matcher of `re.sub(r'\n\s*\n+', '\n\n', ...)` (step 8b); the greedy
`\s*`/`\n+` interplay ends the match at the last newline of the run. -/
def nnMatcher2 (s : List Char) : Option (List Char × Nat) :=
  match s with
  | [] => none
  | c :: rest =>
    if c = '\n' then
      match lastNlInRun rest with
      | some k => some (['\n', '\n'], k + 2)
      | none => none
    else none

/-! ### Noise removal (step 3c) -/

/-- `re.sub(r'[^...]', ' ', ...)`: a single-character class, hence a
per-character map. -/
def noiseSub (s : List Char) : List Char :=
  s.map (fun c => if isAllowedChar c then c else ' ')

/-! ### Step 4: the guarded, logged, case-insensitive substitutions -/

/-- Case-insensitive prefix agreement of an ASCII pattern (both sides
ASCII-lowercased), the per-position test of `re.IGNORECASE` matching and of
`key.lower() in text.lower()`. -/
def lowAgrees : List Char → List Char → Bool
  | [], _ => true
  | _ :: _, [] => false
  | p :: ps, c :: cs => (toLowerA c = toLowerA p) && lowAgrees ps cs

/-- `key.lower() in text.lower()` for an ASCII key. -/
def containsCI : List Char → List Char → Bool
  | [], pat => pat.isEmpty
  | c :: cs, pat => lowAgrees pat (c :: cs) || containsCI cs pat

/-- Matcher of `re.sub(re.escape(key), val, text, flags=re.IGNORECASE)` for a
nonempty literal key. -/
def ciMatcher (pat rep : List Char) (s : List Char) : Option (List Char × Nat) :=
  if (!pat.isEmpty) && lowAgrees pat s then some (rep, pat.length) else none

def replaceCI (s pat rep : List Char) : List Char :=
  subScan (ciMatcher pat rep) s.length s

/-- One iteration of the step-4 loop over `common_mistakes`: guard by
case-insensitive containment, substitute globally, log the substitution. -/
def applyMistake (st : List Char × List String) (kv : String × String) :
    List Char × List String :=
  if containsCI st.1 kv.1.data then
    (replaceCI st.1 kv.1.data kv.2.data,
      st.2 ++ ["Fixed: \x27" ++ kv.1 ++ "\x27 " ++ fixArrow ++ " \x27" ++ kv.2 ++ "\x27"])
  else st

def applyMistakes (s : List Char) (imps : List String) : List Char × List String :=
  common_mistakes.foldl applyMistake (s, imps)

/-! ### Step 5: `_fix_vietnamese_diacritics` -/

/-- `_fix_vietnamese_diacritics` (lines 253-269) builds a local table but
returns its argument unchanged. -/
def fix_vietnamese_diacritics (s : List Char) : List Char := s

/-! ### Step 6: `_fix_date_formats` -/

def isSepDMY (c : Char) : Bool := c = '.' || c = '/' || c = '-'

/-- Match exactly `n` decimal digits, returning them and the rest. -/
def takeDigits : Nat → List Char → Option (List Char × List Char)
  | 0, s => some ([], s)
  | _ + 1, [] => none
  | n + 1, c :: cs =>
    if isDigitA c then
      match takeDigits n cs with
      | some (ds, rest) => some (c :: ds, rest)
      | none => none
    else none

/-- One backtracking alternative of the date pattern
`(\d{1,2})[\./\-](\d{1,2})[\./\-](\d{4})` with group widths `d1`, `d2`. -/
def dateTry (d1 d2 : Nat) (s : List Char) : Option (List Char × Nat) :=
  match takeDigits d1 s with
  | none => none
  | some (g1, r1) =>
    match r1 with
    | [] => none
    | c1 :: r1x =>
      if isSepDMY c1 then
        match takeDigits d2 r1x with
        | none => none
        | some (g2, r2) =>
          match r2 with
          | [] => none
          | c2 :: r2x =>
            if isSepDMY c2 then
              match takeDigits 4 r2x with
              | none => none
              | some (g3, _) =>
                some (g1 ++ '/' :: g2 ++ '/' :: g3, d1 + d2 + 6)
            else none
      else none

/-- Matcher of the date pattern, in Python's greedy backtracking order on the
two `\d{1,2}` groups. -/
def dateMatcher (s : List Char) : Option (List Char × Nat) :=
  (dateTry 2 2 s).orElse fun _ =>
    (dateTry 2 1 s).orElse fun _ =>
      (dateTry 1 2 s).orElse fun _ => dateTry 1 1 s

def fix_date_formats (s : List Char) : List Char :=
  subScan dateMatcher s.length s

/-! ### Step 7: `_fix_numbers` -/

/-- Length and remainder of the leading whitespace run (`\s*` is deterministic
here: it is always followed by `\d`, which is disjoint from `\s`). -/
def wsRun : List Char → Nat × List Char
  | [] => (0, [])
  | c :: cs =>
    if isPySpace c then
      let r := wsRun cs
      (r.1 + 1, r.2)
    else (0, c :: cs)

/-- Matcher of `(\d{3})\s*(\d{3})\s*(\d{3})\s*(\d{3})`, replaced by the
concatenated digit groups. -/
def idMatcher (s : List Char) : Option (List Char × Nat) :=
  match takeDigits 3 s with
  | none => none
  | some (g1, r1) =>
    let w1 := wsRun r1
    match takeDigits 3 w1.2 with
    | none => none
    | some (g2, r2) =>
      let w2 := wsRun r2
      match takeDigits 3 w2.2 with
      | none => none
      | some (g3, r3) =>
        let w3 := wsRun r3
        match takeDigits 3 w3.2 with
        | none => none
        | some (g4, _) =>
          some (g1 ++ g2 ++ g3 ++ g4, 12 + w1.1 + w2.1 + w3.1)

def isPhoneSep (c : Char) : Bool := isPySpace c || c = '-'

/-- Length and remainder of the leading `[\s\-]*` run. -/
def sepRun : List Char → Nat × List Char
  | [] => (0, [])
  | c :: cs =>
    if isPhoneSep c then
      let r := sepRun cs
      (r.1 + 1, r.2)
    else (0, c :: cs)

/-- The alternation `(\+84|0)` (first alternative preferred; their first
characters differ, so no cross-alternative backtracking can occur). -/
def phoneHead : List Char → Option (List Char × Nat)
  | [] => none
  | [c1] => if c1 = '0' then some (['0'], 1) else none
  | [c1, _] => if c1 = '0' then some (['0'], 1) else none
  | c1 :: c2 :: c3 :: _ =>
    if c1 = '+' && c2 = '8' && c3 = '4' then some (['+', '8', '4'], 3)
    else if c1 = '0' then some (['0'], 1) else none

/-- One backtracking alternative of the phone pattern
`(\+84|0)[\s\-]*(\d{2,3})[\s\-]*(\d{3})[\s\-]*(\d{3,4})` with group widths
`d2` and `d4`. -/
def phoneTry (g1 : List Char) (n1 d2 d4 : Nat) (r : List Char) :
    Option (List Char × Nat) :=
  let w1 := sepRun r
  match takeDigits d2 w1.2 with
  | none => none
  | some (g2, r2) =>
    let w2 := sepRun r2
    match takeDigits 3 w2.2 with
    | none => none
    | some (g3, r3) =>
      let w3 := sepRun r3
      match takeDigits d4 w3.2 with
      | none => none
      | some (g4, _) =>
        some (g1 ++ g2 ++ g3 ++ g4, n1 + w1.1 + d2 + w2.1 + 3 + w3.1 + d4)

/-- Matcher of the phone pattern, in Python's greedy backtracking order on the
`\d{2,3}` and `\d{3,4}` groups. -/
def phoneMatcher (s : List Char) : Option (List Char × Nat) :=
  match phoneHead s with
  | none => none
  | some (g1, n1) =>
    let r := s.drop n1
    (phoneTry g1 n1 3 4 r).orElse fun _ =>
      (phoneTry g1 n1 3 3 r).orElse fun _ =>
        (phoneTry g1 n1 2 4 r).orElse fun _ => phoneTry g1 n1 2 3 r

/-- `_fix_numbers` (lines 277-285): first the 12-digit-ID join, then the
phone-number join. -/
def fix_numbers (s : List Char) : List Char :=
  let t := subScan idMatcher s.length s
  subScan phoneMatcher t.length t

/-! ### Assembling `clean_vietnamese_text` -/

/-- Step 2: `unicodedata.normalize('NFC', text)`.  Every string constant of
this service is NFC-normal and NFC is the identity on NFC-normal text; the
embedding models the step as the identity (the surrounding try/except makes
the step total either way). -/
def nfcNormalize (s : List Char) : List Char := s

/-- The two log entries recorded unconditionally before step 4. -/
def baseImprovements : List String :=
  ["Unicode normalization applied",
   "Removed noise characters and normalized spacing"]

/-- Steps 1-3: strip, NFC, whitespace collapse, blank-line collapse, noise
removal. -/
def step3Normalize (text : String) : List Char :=
  let t := collapseWs (nfcNormalize (pyStrip text.data))
  noiseSub (subScan nnMatcher1 t.length t)

/-- Step 8: final whitespace collapse + strip, then the blank-line rewrite. -/
def finalizeWs (s : List Char) : List Char :=
  let t := pyStrip (collapseWs s)
  subScan nnMatcher2 t.length t

/-- The cleaned-text pipeline of `clean_vietnamese_text` (steps 1-8 in source
order). -/
def cleanedCore (text : String) : List Char :=
  finalizeWs (fix_numbers (fix_date_formats (fix_vietnamese_diacritics
    (applyMistakes (step3Normalize text) baseImprovements).1)))

/-- Python `len(s.split())`: number of nonempty whitespace-separated groups.
The flag records whether the scanner is inside a group already counted. -/
def pySplitCount : List Char → Bool → Nat
  | [], _ => 0
  | c :: cs, inWord =>
    if isPySpace c then pySplitCount cs false
    else if inWord then pySplitCount cs true
    else 1 + pySplitCount cs true

/-- The `statistics` dictionary of the cleaning result. -/
structure CleanStats where
  original_length : Nat
  cleaned_length : Nat
  character_reduction : Int
  word_count : Nat
  line_count : Nat
  improvements_applied : Nat

/-- `TextCleaningResult` (lines 123-127). -/
structure CleanResult where
  original_text : String
  cleaned_text : String
  improvements : List String
  statistics : CleanStats

/-- `VietnameseTextCleaner.clean_vietnamese_text` (lines 184-251). -/
def clean_vietnamese_text (text : String) : CleanResult :=
  let p4 := applyMistakes (step3Normalize text) baseImprovements
  let imps := p4.2 ++
    ["Vietnamese diacritics correction applied",
     "Date formats normalized",
     "Number formats normalized"]
  let cleaned := finalizeWs (fix_numbers (fix_date_formats
    (fix_vietnamese_diacritics p4.1)))
  { original_text := text
    cleaned_text := String.mk cleaned
    improvements := imps
    statistics :=
      { original_length := text.length
        cleaned_length := cleaned.length
        character_reduction := (text.length : Int) - (cleaned.length : Int)
        word_count := pySplitCount cleaned false
        line_count := 1 + cleaned.countP (fun c => c = '\n')
        improvements_applied := imps.length } }

/-- Exact (case-sensitive) substring containment, used to state the spec's
"output must contain ..." properties. -/
def containsStr : List Char → List Char → Bool
  | [], pat => pat.isEmpty
  | c :: cs, pat => pat.isPrefixOf (c :: cs) || containsStr cs pat

/-! ### The multi-approach Tesseract sweep
(`process_with_tesseract_multi_approach`, src/python-tesseract-service/app.py,
lines 152-266).

The external OCR engine is an oracle `Engine : approach → language → psm →
Option String`: `some raw` models a subprocess run with exit code 0 and
standard output `raw` (the code then takes `raw.strip()` as the attempt's
text); `none` models every swallowed failure mode of the inner try/except —
a timeout, a raised exception, or a non-zero exit code.  `prepOk` models the
per-approach try block around preprocessing and temp-file writing: when it
fails, the whole approach is skipped.  The model starts after the
availability check and the successful image decode, which the claims assume,
and omits wall-clock fields (`processing_time`) and the `file_id`. -/

abbrev Engine := String → String → Nat → Option String

/-- One external invocation of the sweep, with the engine's outcome. -/
structure Invocation where
  approach : String
  lang : String
  psm : Nat
  output : Option String

/-- The tracked best attempt (`best_result`, lines 208-214). -/
structure BestResult where
  text : String
  confidence : Nat
  method : String
  preprocessing : String

/-- The loop state: `best_result` and `best_score` (lines 181-182). -/
structure SweepState where
  best : Option BestResult
  bestScore : Nat

/-- The sweep's result dictionary, restricted to the fields the claims are
about. -/
structure OCROutcome where
  success : Bool
  text : String
  confidence : Nat
  method : String
  preprocessing : String

/-- The six preprocessing approaches (lines 172-179). -/
def approaches : List String :=
  ["original", "user_preprocessing", "simple_threshold", "adaptive",
   "enhanced_contrast", "morphological"]

/-- The four page-segmentation modes (line 197). -/
def psmModes : List Nat := [3, 6, 7, 8]

/-- `[language, 'eng'] if language != 'eng' else ['eng']` (line 196). -/
def langsFor (language : String) : List String :=
  if language ≠ "eng" then [language, "eng"] else ["eng"]

/-- The inner psm loop (lines 197-223): each iteration invokes the engine
once; a successful attempt strictly longer than the best so far replaces it,
and an attempt longer than 100 characters additionally breaks this loop. -/
def psmLoop (engine : Engine) (approach lang : String) :
    SweepState → List Nat → SweepState × List Invocation
  | st, [] => (st, [])
  | st, p :: ps =>
    let out := engine approach lang p
    let inv : Invocation := ⟨approach, lang, p, out⟩
    match out with
    | none =>
      let r := psmLoop engine approach lang st ps
      (r.1, inv :: r.2)
    | some raw =>
      let text := String.mk (pyStrip raw.data)
      let n := text.length
      if n > st.bestScore then
        let stx : SweepState :=
          { best := some ⟨text, min 95 (50 + n / 2),
              "tesseract_" ++ approach ++ "_" ++ lang ++ "_psm" ++ Nat.repr p,
              approach⟩
            bestScore := n }
        if n > 100 then (stx, [inv])
        else
          let r := psmLoop engine approach lang stx ps
          (r.1, inv :: r.2)
      else
        let r := psmLoop engine approach lang st ps
        (r.1, inv :: r.2)

/-- The language loop (lines 196-226): after each language's psm sweep, a
best score above 100 breaks out of the language loop. -/
def langLoop (engine : Engine) (approach : String) :
    SweepState → List String → SweepState × List Invocation
  | st, [] => (st, [])
  | st, l :: ls =>
    let r1 := psmLoop engine approach l st psmModes
    if r1.1.bestScore > 100 then (r1.1, r1.2)
    else
      let r2 := langLoop engine approach r1.1 ls
      (r2.1, r1.2 ++ r2.2)

/-- The approach loop (lines 186-236): no best-score check occurs between
approaches, so the sweep always proceeds to the next preprocessing variant. -/
def approachLoop (engine : Engine) (prepOk : String → Bool)
    (langs : List String) :
    SweepState → List String → SweepState × List Invocation
  | st, [] => (st, [])
  | st, a :: rest =>
    if prepOk a then
      let r1 := langLoop engine a st langs
      let r2 := approachLoop engine prepOk langs r1.1 rest
      (r2.1, r1.2 ++ r2.2)
    else
      approachLoop engine prepOk langs st rest

/-- `process_with_tesseract_multi_approach` after image decode: run the sweep
and package the result (lines 240-254), together with the full invocation
trace. -/
def process_with_tesseract_multi_approach (engine : Engine)
    (prepOk : String → Bool) (language : String) :
    OCROutcome × List Invocation :=
  let r := approachLoop engine prepOk (langsFor language) ⟨none, 0⟩ approaches
  match r.1.best with
  | some b =>
    if r.1.bestScore ≥ 2 then
      ({ success := true, text := b.text, confidence := b.confidence,
         method := b.method, preprocessing := b.preprocessing }, r.2)
    else
      ({ success := true, text := "", confidence := 0,
         method := "tesseract_no_text_found", preprocessing := "none" }, r.2)
  | none =>
    ({ success := true, text := "", confidence := 0,
       method := "tesseract_no_text_found", preprocessing := "none" }, r.2)

/-! ### Spec-side definitions for the sweep claims -/

/-- The texts of the successful attempts of a trace, in invocation order
(each successful invocation's text is its stripped standard output). -/
def attemptTexts (tr : List Invocation) : List String :=
  tr.filterMap (fun i => i.output.map (fun raw => String.mk (pyStrip raw.data)))

/-- Modelled from the spec: one step of "track the attempt with the maximum
text length seen so far", with a strict greater-than comparison so that the
earliest attempt of maximal length wins ties. -/
def stepFB (acc : Option String) (t : String) : Option String :=
  match acc with
  | none => some t
  | some b => if t.length > b.length then some t else acc

/-- Modelled from the spec: the text of the first attempt whose length is
maximal over a list of attempt texts in invocation order. -/
def firstBest (texts : List String) : Option String :=
  texts.foldl stepFB none

/-- Length of an optional text (0 when absent). -/
def olen (o : Option String) : Nat := (o.getD "").length

/-- Refinement invariant between the sweep's mutable state and the spec-side
"first attempt of maximal length" fold over the successful attempt texts seen
so far. -/
def InvFB (st : SweepState) (acc : Option String) : Prop :=
  st.bestScore = olen acc ∧
  (0 < st.bestScore → st.best.map BestResult.text = acc) ∧
  (st.bestScore = 0 → st.best = none)

/-- No two adjacent characters are both whitespace. -/
def wsSep : List Char → Prop
  | [] => True
  | [_] => True
  | c :: d :: t => ¬(isPySpace c = true ∧ isPySpace d = true) ∧ wsSep (d :: t)

/-- The head, if any, is not whitespace. -/
def headOkay : List Char → Prop
  | [] => True
  | c :: _ => isPySpace c = false

/-- Some pair of the list has key exactly `[d]` and a `d`-free value, and
every later pair's value is `d`-free: the condition under which the step-4
fold eliminates the character `d` from any text. -/
def elimIn (d : Char) : List (String × String) → Bool
  | [] => false
  | (k, v) :: rest =>
    (decide (k.data = [d]) && !(decide (d ∈ v.data))
      && rest.all (fun kv => !(decide (d ∈ kv.2.data))))
    || elimIn d rest

/-- Counterexample engine: only the very first combination succeeds, with a
151-character output (well beyond the early-exit threshold). -/
def engLong : Engine := fun a _ p =>
  if a = "original" ∧ p = 3 then some (String.mk (List.replicate 151 'a')) else none

/-- Counterexample engine: only the very first combination succeeds, with a
single-character output (below the minimum-viable-length threshold). -/
def engShort : Engine := fun a _ p =>
  if a = "original" ∧ p = 3 then some "a" else none

/-- Witness engine: one combination succeeds with a three-character output. -/
def engAbc : Engine := fun a l p =>
  if a = "original" ∧ l = "eng" ∧ p = 3 then some "abc" else none

/-- Witness engine: every invocation fails. -/
def engFail : Engine := fun _ _ _ => none

/-! ### Lemmas about the sweep -/

theorem attemptTexts_nil : attemptTexts [] = [] := rfl

theorem attemptTexts_append (t1 t2 : List Invocation) :
    attemptTexts (t1 ++ t2) = attemptTexts t1 ++ attemptTexts t2 := by
  simp [attemptTexts]

theorem attemptTexts_cons_none (a l : String) (p : Nat) (tr : List Invocation) :
    attemptTexts (⟨a, l, p, none⟩ :: tr) = attemptTexts tr := by
  simp [attemptTexts]

theorem attemptTexts_cons_some (a l : String) (p : Nat) (raw : String)
    (tr : List Invocation) :
    attemptTexts (⟨a, l, p, some raw⟩ :: tr)
      = String.mk (pyStrip raw.data) :: attemptTexts tr := by
  simp [attemptTexts]

theorem psmLoop_trace_len (e : Engine) (a l : String) (st : SweepState)
    (ps : List Nat) : ((psmLoop e a l st ps).2).length ≤ ps.length := by
  induction ps generalizing st with
  | nil => simp [psmLoop]
  | cons p ps ih =>
    simp only [psmLoop]
    cases e a l p with
    | none => simpa using ih st
    | some raw =>
      dsimp only
      split
      · split
        · simp
        · simpa using ih _
      · simpa using ih st

theorem psmLoop_score_mono (e : Engine) (a l : String) (st : SweepState)
    (ps : List Nat) : st.bestScore ≤ ((psmLoop e a l st ps).1).bestScore := by
  induction ps generalizing st with
  | nil => simp [psmLoop]
  | cons p ps ih =>
    simp only [psmLoop]
    cases e a l p with
    | none => exact ih st
    | some raw =>
      dsimp only
      split
      next hgt =>
        split
        · exact Nat.le_of_lt hgt
        · exact Nat.le_trans (Nat.le_of_lt hgt) (ih ⟨_, _⟩)
      next => exact ih st

theorem psmLoop_lang (e : Engine) (a l : String) (st : SweepState)
    (ps : List Nat) : ∀ inv ∈ (psmLoop e a l st ps).2, inv.lang = l := by
  induction ps generalizing st with
  | nil => simp [psmLoop]
  | cons p ps ih =>
    simp only [psmLoop]
    cases e a l p with
    | none =>
      intro inv hinv
      rcases List.mem_cons.mp hinv with h | h
      · rw [h]
      · exact ih st inv h
    | some raw =>
      dsimp only
      split
      · split
        · intro inv hinv
          rcases List.mem_cons.mp hinv with h | h
          · rw [h]
          · simp at h
        · intro inv hinv
          rcases List.mem_cons.mp hinv with h | h
          · rw [h]
          · exact ih _ inv h
      · intro inv hinv
        rcases List.mem_cons.mp hinv with h | h
        · rw [h]
        · exact ih st inv h

theorem langLoop_score_mono (e : Engine) (a : String) (st : SweepState)
    (ls : List String) : st.bestScore ≤ ((langLoop e a st ls).1).bestScore := by
  induction ls generalizing st with
  | nil => simp [langLoop]
  | cons l ls ih =>
    simp only [langLoop]
    split
    · exact psmLoop_score_mono e a l st psmModes
    · exact Nat.le_trans (psmLoop_score_mono e a l st psmModes) (ih _)

theorem langLoop_trace_len (e : Engine) (a : String) (st : SweepState)
    (ls : List String) : ((langLoop e a st ls).2).length ≤ 4 * ls.length := by
  induction ls generalizing st with
  | nil => simp [langLoop]
  | cons l ls ih =>
    simp only [langLoop]
    have h4 : ((psmLoop e a l st psmModes).2).length ≤ 4 :=
      psmLoop_trace_len e a l st psmModes
    split
    · simp only [List.length_cons]
      omega
    · have := ih ((psmLoop e a l st psmModes).1)
      simp only [List.length_append, List.length_cons]
      omega

theorem approachLoop_score_mono (e : Engine) (pok : String → Bool)
    (langs : List String) (st : SweepState) (rest : List String) :
    st.bestScore ≤ ((approachLoop e pok langs st rest).1).bestScore := by
  induction rest generalizing st with
  | nil => simp [approachLoop]
  | cons a rest ih =>
    simp only [approachLoop]
    split
    · exact Nat.le_trans (langLoop_score_mono e a st langs) (ih _)
    · exact ih st

theorem approachLoop_trace_len (e : Engine) (pok : String → Bool)
    (langs : List String) (st : SweepState) (rest : List String) :
    ((approachLoop e pok langs st rest).2).length ≤ rest.length * (4 * langs.length) := by
  induction rest generalizing st with
  | nil => simp [approachLoop]
  | cons a rest ih =>
    simp only [approachLoop]
    split
    · have h1 := langLoop_trace_len e a st langs
      have h2 := ih ((langLoop e a st langs).1)
      simp only [List.length_append, List.length_cons]
      rw [Nat.succ_mul]
      omega
    · have h2 := ih st
      simp only [List.length_cons]
      rw [Nat.succ_mul]
      omega

theorem langsFor_len_le (language : String) : (langsFor language).length ≤ 2 := by
  unfold langsFor
  split <;> simp

theorem approachLoop_after_threshold (e : Engine) (pok : String → Bool)
    (l : String) (ls : List String) (st : SweepState) (rest : List String)
    (h : 100 < st.bestScore) :
    ((approachLoop e pok (l :: ls) st rest).2).length ≤ 4 * rest.length ∧
    ∀ inv ∈ (approachLoop e pok (l :: ls) st rest).2, inv.lang = l := by
  induction rest generalizing st with
  | nil => simp [approachLoop]
  | cons a rest ih =>
    simp only [approachLoop]
    split
    · have hcross : 100 < ((psmLoop e a l st psmModes).1).bestScore :=
        Nat.lt_of_lt_of_le h (psmLoop_score_mono e a l st psmModes)
      have hlang : langLoop e a st (l :: ls)
          = ((psmLoop e a l st psmModes).1, (psmLoop e a l st psmModes).2) := by
        simp only [langLoop]
        rw [if_pos (by exact hcross)]
      rw [hlang]
      have hrec := ih ((psmLoop e a l st psmModes).1) hcross
      have h1 := psmLoop_trace_len e a l st psmModes
      constructor
      · simp only [List.length_append, List.length_cons]
        have hpm : psmModes.length = 4 := rfl
        omega
      · intro inv hinv
        rcases List.mem_append.mp hinv with hm | hm
        · exact psmLoop_lang e a l st psmModes inv hm
        · exact hrec.2 inv hm
    · have hrec := ih st h
      have h1 := hrec.1
      constructor
      · simp only [List.length_cons]
        omega
      · exact hrec.2

theorem stepInvFB (st : SweepState) (acc : Option String) (hInv : InvFB st acc)
    (t : String) (conf : Nat) (meth appr : String) :
    InvFB (if t.length > st.bestScore
            then { best := some ⟨t, conf, meth, appr⟩, bestScore := t.length }
            else st)
          (stepFB acc t) := by
  obtain ⟨h1, h2, h3⟩ := hInv
  by_cases hgt : t.length > st.bestScore
  · rw [if_pos hgt]
    cases acc with
    | none =>
      refine ⟨rfl, fun _ => rfl, fun h0 => ?_⟩
      have ht0 : t.length = 0 := h0
      omega
    | some b =>
      have hob : olen (some b) = b.length := rfl
      have hb : t.length > b.length := by omega
      refine ⟨?_, fun _ => ?_, fun h0 => ?_⟩
      · simp [stepFB, if_pos hb, olen]
      · simp [stepFB, if_pos hb]
      · have ht0 : t.length = 0 := h0
        omega
  · rw [if_neg hgt]
    cases acc with
    | none =>
      have hon : olen (none : Option String) = 0 := rfl
      have ht0 : t.length = 0 := by omega
      refine ⟨?_, fun hpos => ?_, h3⟩
      · show st.bestScore = olen (some t)
        have : olen (some t) = t.length := rfl
        omega
      · omega
    | some b =>
      have hob : olen (some b) = b.length := rfl
      have hb : ¬ t.length > b.length := by omega
      refine ⟨?_, ?_, h3⟩
      · simpa [stepFB, if_neg hb] using h1
      · simpa [stepFB, if_neg hb] using h2

theorem psmLoop_inv (e : Engine) (a l : String) (st : SweepState)
    (ps : List Nat) (acc : Option String) (h : InvFB st acc) :
    InvFB ((psmLoop e a l st ps).1)
          ((attemptTexts ((psmLoop e a l st ps).2)).foldl stepFB acc) := by
  induction ps generalizing st acc with
  | nil => simpa [psmLoop, attemptTexts] using h
  | cons p ps ih =>
    simp only [psmLoop]
    cases he : e a l p with
    | none =>
      have := ih st acc h
      simpa [attemptTexts] using this
    | some raw =>
      dsimp only
      have hstep := stepInvFB st acc h (String.mk (pyStrip raw.data))
        (min 95 (50 + (String.mk (pyStrip raw.data)).length / 2))
        ("tesseract_" ++ a ++ "_" ++ l ++ "_psm" ++ Nat.repr p) a
      split
      next hgt =>
        rw [if_pos hgt] at hstep
        split
        next =>
          simpa [attemptTexts] using hstep
        next =>
          have := ih _ _ hstep
          simpa [attemptTexts] using this
      next hgt =>
        rw [if_neg hgt] at hstep
        have := ih st _ hstep
        simpa [attemptTexts] using this

theorem langLoop_inv (e : Engine) (a : String) (st : SweepState)
    (ls : List String) (acc : Option String) (h : InvFB st acc) :
    InvFB ((langLoop e a st ls).1)
          ((attemptTexts ((langLoop e a st ls).2)).foldl stepFB acc) := by
  induction ls generalizing st acc with
  | nil => simpa [langLoop, attemptTexts] using h
  | cons l ls ih =>
    simp only [langLoop]
    split
    · exact psmLoop_inv e a l st psmModes acc h
    · have h1 := psmLoop_inv e a l st psmModes acc h
      have h2 := ih _ _ h1
      simpa [attemptTexts_append, List.foldl_append] using h2

theorem approachLoop_inv (e : Engine) (pok : String → Bool)
    (langs : List String) (st : SweepState) (rest : List String)
    (acc : Option String) (h : InvFB st acc) :
    InvFB ((approachLoop e pok langs st rest).1)
          ((attemptTexts ((approachLoop e pok langs st rest).2)).foldl stepFB acc) := by
  induction rest generalizing st acc with
  | nil => simpa [approachLoop, attemptTexts] using h
  | cons a rest ih =>
    simp only [approachLoop]
    split
    · have h1 := langLoop_inv e a st langs acc h
      have h2 := ih _ _ h1
      simpa [attemptTexts_append, List.foldl_append] using h2
    · exact ih st acc h

theorem psmLoop_state_of_none (e : Engine) (a l : String) (st : SweepState)
    (ps : List Nat) (h : ∀ p, e a l p = none) :
    (psmLoop e a l st ps).1 = st := by
  induction ps generalizing st with
  | nil => simp [psmLoop]
  | cons p ps ih =>
    simp only [psmLoop, h p]
    exact ih st

theorem langLoop_state_of_none (e : Engine) (a : String) (st : SweepState)
    (ls : List String) (h : ∀ l p, e a l p = none) :
    (langLoop e a st ls).1 = st := by
  induction ls generalizing st with
  | nil => simp [langLoop]
  | cons l ls ih =>
    simp only [langLoop]
    have h1 : (psmLoop e a l st psmModes).1 = st :=
      psmLoop_state_of_none e a l st psmModes (h l)
    split
    · exact h1
    · rw [h1]
      exact ih st

theorem approachLoop_state_of_none (e : Engine) (pok : String → Bool)
    (langs : List String) (st : SweepState) (rest : List String)
    (h : ∀ a l p, e a l p = none) :
    (approachLoop e pok langs st rest).1 = st := by
  induction rest generalizing st with
  | nil => simp [approachLoop]
  | cons a rest ih =>
    simp only [approachLoop]
    split
    · rw [langLoop_state_of_none e a st langs (h a)]
      exact ih st
    · exact ih st

/-! ### Lemmas about the substitution table: elimination of 0 and 1 -/

theorem not_mem_of_containsCI_single_false (s : List Char) (d : Char)
    (h : containsCI s [d] = false) : d ∉ s := by
  induction s with
  | nil => simp
  | cons c cs ih =>
    simp only [containsCI, Bool.or_eq_false_iff] at h
    intro hmem
    rcases List.mem_cons.mp hmem with hc | hc
    · have : lowAgrees [d] (c :: cs) = true := by
        simp [lowAgrees, hc]
      rw [this] at h
      exact absurd h.1 (by simp)
    · exact ih h.2 hc

theorem mem_subScan_fixed_rep (m : List Char → Option (List Char × Nat))
    (rep : List Char) (hm : ∀ s1 x, m s1 = some x → x.1 = rep) :
    ∀ (f : Nat) (s : List Char) (c : Char), c ∈ subScan m f s → c ∈ s ∨ c ∈ rep := by
  intro f
  induction f with
  | zero => intro s c hc; simp [subScan] at hc
  | succ f ih =>
    intro s c hc
    cases s with
    | nil => simp [subScan] at hc
    | cons a as =>
      rw [subScan] at hc
      cases hx : m (a :: as) with
      | some x =>
        rw [hx] at hc
        rcases List.mem_append.mp hc with h | h
        · exact Or.inr ((hm _ _ hx) ▸ h)
        · rcases ih _ _ h with h2 | h2
          · exact Or.inl (List.drop_subset _ _ h2)
          · exact Or.inr h2
      | none =>
        rw [hx] at hc
        rcases List.mem_cons.mp hc with h | h
        · exact Or.inl (h ▸ List.mem_cons_self a as)
        · rcases ih _ _ h with h2 | h2
          · exact Or.inl (List.mem_cons_of_mem a h2)
          · exact Or.inr h2

theorem not_mem_subScan_ci_single (d : Char) (rep : List Char) (hd : d ∉ rep) :
    ∀ (f : Nat) (s : List Char), d ∉ subScan (ciMatcher [d] rep) f s := by
  intro f
  induction f with
  | zero => intro s; simp [subScan]
  | succ f ih =>
    intro s
    cases s with
    | nil => simp [subScan]
    | cons a as =>
      rw [subScan]
      cases hx : ciMatcher [d] rep (a :: as) with
      | some x =>
        have hrep : x.1 = rep := by
          unfold ciMatcher at hx
          split at hx
          · cases hx; rfl
          · cases hx
        intro hmem
        rcases List.mem_append.mp hmem with h | h
        · exact hd (hrep ▸ h)
        · exact ih _ h
      | none =>
        have hne : a ≠ d := by
          intro had
          unfold ciMatcher at hx
          rw [if_pos] at hx
          · cases hx
          · simp [lowAgrees, had]
        intro hmem
        rcases List.mem_cons.mp hmem with h | h
        · exact hne h.symm
        · exact ih _ h

theorem applyMistake_fst (st : List Char × List String) (kv : String × String) :
    (applyMistake st kv).1
      = if containsCI st.1 kv.1.data then replaceCI st.1 kv.1.data kv.2.data else st.1 := by
  unfold applyMistake
  split <;> rfl

theorem not_mem_applyMistake_elim (st : List Char × List String) (d : Char)
    (k v : String) (hk : k.data = [d]) (hv : d ∉ v.data) :
    d ∉ (applyMistake st (k, v)).1 := by
  rw [applyMistake_fst]
  split
  · rw [replaceCI, hk]
    exact not_mem_subScan_ci_single d v.data hv _ _
  next hng =>
    rw [hk] at hng
    exact not_mem_of_containsCI_single_false st.1 d (by simpa using hng)

theorem not_mem_applyMistake_preserve (st : List Char × List String) (d : Char)
    (kv : String × String) (hs : d ∉ st.1) (hv : d ∉ kv.2.data) :
    d ∉ (applyMistake st kv).1 := by
  rw [applyMistake_fst]
  split
  · intro hmem
    rcases mem_subScan_fixed_rep (ciMatcher kv.1.data kv.2.data) kv.2.data
        (by
          intro s1 x hx
          unfold ciMatcher at hx
          split at hx
          · cases hx; rfl
          · cases hx) _ _ _ hmem with h | h
    · exact hs h
    · exact hv h
  · exact hs

theorem foldl_preserve_d (d : Char) (L : List (String × String))
    (hL : L.all (fun kv => !(decide (d ∈ kv.2.data))) = true) :
    ∀ st : List Char × List String, d ∉ st.1 → d ∉ (List.foldl applyMistake st L).1 := by
  induction L with
  | nil => intro st h; simpa using h
  | cons kv rest ih =>
    intro st h
    simp only [List.all_cons, Bool.and_eq_true] at hL
    have h1 : d ∉ kv.2.data := by simpa using hL.1
    exact ih hL.2 _ (not_mem_applyMistake_preserve st d kv h h1)

theorem foldl_elim_d (d : Char) (L : List (String × String))
    (hL : elimIn d L = true) :
    ∀ st : List Char × List String, d ∉ (List.foldl applyMistake st L).1 := by
  induction L with
  | nil => simp [elimIn] at hL
  | cons kv rest ih =>
    intro st
    obtain ⟨k, v⟩ := kv
    rw [elimIn, Bool.or_eq_true] at hL
    rcases hL with hfst | hrest
    · simp only [Bool.and_eq_true, decide_eq_true_eq, Bool.not_eq_true',
        decide_eq_false_iff_not] at hfst
      obtain ⟨⟨hk, hv⟩, hall⟩ := hfst
      rw [List.foldl_cons]
      refine foldl_preserve_d d rest ?_ _ ?_
      · simpa using hall
      · exact not_mem_applyMistake_elim st d k v hk hv
    · rw [List.foldl_cons]
      exact ih hrest _

set_option maxHeartbeats 1000000 in
theorem applyMistakes_no01 (s : List Char) (imps : List String) :
    '0' ∉ (applyMistakes s imps).1 ∧ '1' ∉ (applyMistakes s imps).1 := by
  rw [applyMistakes]
  exact ⟨foldl_elim_d '0' common_mistakes (by decide) (s, imps),
         foldl_elim_d '1' common_mistakes (by decide) (s, imps)⟩

/-! ### Whitespace normal forms -/

theorem mem_collapseGo (s : List Char) (b : Bool) (c : Char)
    (h : c ∈ collapseGo s b) : c = ' ' ∨ (c ∈ s ∧ isPySpace c = false) := by
  induction s generalizing b with
  | nil => simp [collapseGo] at h
  | cons a as ih =>
    rw [collapseGo] at h
    by_cases ha : isPySpace a
    · rw [if_pos ha] at h
      by_cases hb : b
      · subst hb
        simp only [if_pos rfl] at h
        rcases ih true h with h2 | h2
        · exact Or.inl h2
        · exact Or.inr ⟨List.mem_cons_of_mem a h2.1, h2.2⟩
      · simp only [Bool.not_eq_true] at hb
        subst hb
        rw [if_neg Bool.false_ne_true] at h
        rcases List.mem_cons.mp h with h2 | h2
        · exact Or.inl h2
        · rcases ih true h2 with h3 | h3
          · exact Or.inl h3
          · exact Or.inr ⟨List.mem_cons_of_mem a h3.1, h3.2⟩
    · rw [if_neg ha] at h
      rcases List.mem_cons.mp h with h2 | h2
      · exact Or.inr ⟨h2 ▸ List.mem_cons_self a as, h2 ▸ (by simpa using ha)⟩
      · rcases ih false h2 with h3 | h3
        · exact Or.inl h3
        · exact Or.inr ⟨List.mem_cons_of_mem a h3.1, h3.2⟩

theorem headOkay_collapseGo_true (s : List Char) : headOkay (collapseGo s true) := by
  induction s with
  | nil => simp [collapseGo, headOkay]
  | cons a as ih =>
    rw [collapseGo]
    by_cases ha : isPySpace a
    · simpa [ha] using ih
    · rw [if_neg ha]
      simpa [headOkay] using ha

theorem wsSep_of_cons (c : Char) (cs : List Char) (h : wsSep (c :: cs)) : wsSep cs := by
  cases cs with
  | nil => trivial
  | cons d t => exact h.2

theorem wsSep_cons_of (c : Char) (cs : List Char) (hcs : wsSep cs)
    (h : ∀ d t, cs = d :: t → isPySpace c = false ∨ isPySpace d = false) :
    wsSep (c :: cs) := by
  cases cs with
  | nil => trivial
  | cons d t =>
    refine ⟨?_, hcs⟩
    rintro ⟨h1, h2⟩
    rcases h d t rfl with h3 | h3
    · rw [h1] at h3; cases h3
    · rw [h2] at h3; cases h3

theorem wsSep_collapseGo (s : List Char) (b : Bool) : wsSep (collapseGo s b) := by
  induction s generalizing b with
  | nil => simp [collapseGo]; trivial
  | cons a as ih =>
    rw [collapseGo]
    by_cases ha : isPySpace a
    · rw [if_pos ha]
      by_cases hb : b
      · subst hb; simpa using ih true
      · simp only [Bool.not_eq_true] at hb
        subst hb
        rw [if_neg Bool.false_ne_true]
        refine wsSep_cons_of ' ' _ (ih true) ?_
        intro d t hdt
        right
        have := headOkay_collapseGo_true as
        rw [hdt] at this
        exact this
    · rw [if_neg ha]
      refine wsSep_cons_of a _ (ih false) ?_
      intro d t hdt
      left
      simpa using ha

theorem collapseGo_id_of_norm (s : List Char) (hsep : wsSep s)
    (hc : ∀ c ∈ s, isPySpace c = true → c = ' ') :
    collapseGo s false = s ∧ (headOkay s → collapseGo s true = s) := by
  induction s with
  | nil => exact ⟨rfl, fun _ => rfl⟩
  | cons a as ih =>
    have hsep' : wsSep as := wsSep_of_cons a as hsep
    have hc' : ∀ c ∈ as, isPySpace c = true → c = ' ' :=
      fun c hm => hc c (List.mem_cons_of_mem a hm)
    have ihs := ih hsep' hc'
    by_cases ha : isPySpace a
    · have ha' : a = ' ' := hc a (List.mem_cons_self a as) (by simpa using ha)
      have hhead : headOkay as := by
        cases as with
        | nil => trivial
        | cons d t =>
          show isPySpace d = false
          by_contra hd
          simp only [Bool.not_eq_false] at hd
          exact hsep.1 ⟨by simpa using ha, hd⟩
      have htrue : collapseGo as true = as := ihs.2 hhead
      constructor
      · rw [collapseGo, if_pos ha, if_neg (by simp), htrue, ha']
      · intro hh
        exact absurd (show isPySpace a = false from hh) (by simpa using ha)
    · have hfalse : collapseGo as false = as := ihs.1
      constructor
      · rw [collapseGo, if_neg ha, hfalse]
      · intro _
        rw [collapseGo, if_neg ha, hfalse]

theorem mem_dropWhile (p : Char → Bool) (s : List Char) (c : Char)
    (h : c ∈ s.dropWhile p) : c ∈ s := by
  induction s with
  | nil => simp at h
  | cons a as ih =>
    rw [List.dropWhile_cons] at h
    split at h
    · exact List.mem_cons_of_mem a (ih h)
    · exact h

theorem wsSep_dropWhile (p : Char → Bool) (s : List Char) (h : wsSep s) :
    wsSep (s.dropWhile p) := by
  induction s with
  | nil => simpa using h
  | cons a as ih =>
    rw [List.dropWhile_cons]
    split
    · exact ih (wsSep_of_cons a as h)
    · exact h

theorem headOkay_dropWhile_ws (s : List Char) : headOkay (s.dropWhile isPySpace) := by
  induction s with
  | nil => trivial
  | cons a as ih =>
    rw [List.dropWhile_cons]
    split
    · exact ih
    next hn => exact (by simpa using hn)

theorem dropWhile_eq_self_of_headOkay (s : List Char) (h : headOkay s) :
    s.dropWhile isPySpace = s := by
  cases s with
  | nil => rfl
  | cons a as =>
    rw [List.dropWhile_cons, if_neg]
    simp [show isPySpace a = false from h]

theorem mem_trimRight (s : List Char) (c : Char) (h : c ∈ trimRight s) : c ∈ s := by
  induction s with
  | nil => simp [trimRight] at h
  | cons a as ih =>
    rw [trimRight] at h
    split at h
    · split at h
      · simp at h
      · rw [List.mem_singleton] at h
        exact h ▸ List.mem_cons_self a as
    · rcases List.mem_cons.mp h with h2 | h2
      · exact h2 ▸ List.mem_cons_self a as
      · exact List.mem_cons_of_mem a (ih h2)

theorem trimRight_head_of_ne_nil (a : Char) (as : List Char)
    (h : trimRight (a :: as) ≠ []) :
    ∃ t, trimRight (a :: as) = a :: t := by
  rw [trimRight] at h ⊢
  by_cases he : (trimRight as).isEmpty
  · rw [if_pos he] at h ⊢
    by_cases ha : isPySpace a
    · rw [if_pos ha] at h
      exact absurd rfl h
    · rw [if_neg ha]
      exact ⟨[], rfl⟩
  · rw [if_neg he]
    exact ⟨trimRight as, rfl⟩

theorem headOkay_trimRight (s : List Char) (h : headOkay s) : headOkay (trimRight s) := by
  cases s with
  | nil => trivial
  | cons a as =>
    rw [trimRight]
    by_cases he : (trimRight as).isEmpty
    · rw [if_pos he]
      by_cases ha : isPySpace a
      · rw [if_pos ha]; trivial
      · rw [if_neg ha]; exact h
    · rw [if_neg he]; exact h

theorem wsSep_trimRight (s : List Char) (h : wsSep s) : wsSep (trimRight s) := by
  induction s with
  | nil => exact h
  | cons a as ih =>
    rw [trimRight]
    by_cases he : (trimRight as).isEmpty
    · rw [if_pos he]
      by_cases ha : isPySpace a
      · rw [if_pos ha]; trivial
      · rw [if_neg ha]; trivial
    · rw [if_neg he]
      have hr := ih (wsSep_of_cons a as h)
      refine wsSep_cons_of a _ hr ?_
      intro d t hdt
      cases as with
      | nil => simp [trimRight] at he
      | cons b bs =>
        obtain ⟨t2, ht2⟩ := trimRight_head_of_ne_nil b bs (by
          intro hh
          rw [hh] at he
          simp at he)
        rw [ht2] at hdt
        have hdb : d = b := by
          injection hdt with h1 _
          exact h1.symm
        subst hdb
        by_cases hwa : isPySpace a
        · right
          by_contra hwb
          simp only [Bool.not_eq_false] at hwb
          exact h.1 ⟨hwa, hwb⟩
        · left
          simpa using hwa

theorem trimRight_trimRight (s : List Char) : trimRight (trimRight s) = trimRight s := by
  induction s with
  | nil => rfl
  | cons a as ih =>
    rw [trimRight]
    by_cases he : (trimRight as).isEmpty
    · rw [if_pos he]
      by_cases ha : isPySpace a
      · rw [if_pos ha]; rfl
      · rw [if_neg ha]
        show trimRight [a] = [a]
        simp [trimRight, ha]
    · rw [if_neg he]
      show trimRight (a :: trimRight as) = a :: trimRight as
      rw [trimRight, ih, if_neg he]

theorem mem_pyStrip (s : List Char) (c : Char) (h : c ∈ pyStrip s) : c ∈ s :=
  mem_dropWhile isPySpace s c (mem_trimRight _ c h)

theorem headOkay_pyStrip (s : List Char) : headOkay (pyStrip s) :=
  headOkay_trimRight _ (headOkay_dropWhile_ws s)

theorem wsSep_pyStrip (s : List Char) (h : wsSep s) : wsSep (pyStrip s) :=
  wsSep_trimRight _ (wsSep_dropWhile isPySpace s h)

theorem pyStrip_pyStrip (s : List Char) : pyStrip (pyStrip s) = pyStrip s := by
  have h1 : (pyStrip s).dropWhile isPySpace = pyStrip s :=
    dropWhile_eq_self_of_headOkay _ (headOkay_pyStrip s)
  show trimRight ((pyStrip s).dropWhile isPySpace) = pyStrip s
  rw [h1]
  show trimRight (trimRight (s.dropWhile isPySpace)) = pyStrip s
  rw [trimRight_trimRight]
  rfl

/-- The whitespace-normal form after step 8a: every character of
`pyStrip (collapseWs s)` that is whitespace is a plain space, no two adjacent
characters are whitespace, and the head is not whitespace. -/
theorem norm_after_finalize (s : List Char) :
    (∀ c ∈ pyStrip (collapseWs s), isPySpace c = true → c = ' ') ∧
    wsSep (pyStrip (collapseWs s)) ∧ headOkay (pyStrip (collapseWs s)) := by
  refine ⟨?_, wsSep_pyStrip _ (wsSep_collapseGo s false), headOkay_pyStrip _⟩
  intro c hc hws
  rcases mem_collapseGo s false c (mem_pyStrip _ c hc) with h | h
  · exact h
  · rw [h.2] at hws
    cases hws

theorem collapseWs_eq_self_of_norm (t : List Char)
    (hc : ∀ c ∈ t, isPySpace c = true → c = ' ') (hsep : wsSep t) :
    collapseWs t = t :=
  (collapseGo_id_of_norm t hsep hc).1

theorem pyStrip_eq_self_of_strip_form (s : List Char) :
    pyStrip (pyStrip (collapseWs s)) = pyStrip (collapseWs s) :=
  pyStrip_pyStrip _

/-! ### Scanner identity lemmas -/

theorem subScan_id (m : List Char → Option (List Char × Nat)) (f : Nat) :
    ∀ s : List Char, s.length ≤ f → (∀ n, m (s.drop n) = none) → subScan m f s = s := by
  induction f with
  | zero =>
    intro s hf _
    rw [List.length_eq_zero.mp (Nat.le_zero.mp hf)]
    rfl
  | succ f ih =>
    intro s hf h
    cases s with
    | nil => rfl
    | cons a as =>
      rw [subScan]
      have h0 := h 0
      rw [List.drop_zero] at h0
      rw [h0]
      have has : as.length ≤ f := by
        simpa using Nat.le_of_succ_le_succ (by simpa using hf)
      rw [ih as has (fun n => by simpa using h (n + 1))]

theorem nnMatcher1_none_of_noNl (t : List Char) (h : '\n' ∉ t) :
    nnMatcher1 t = none := by
  cases t with
  | nil => rfl
  | cons a as =>
    have ha : a ≠ '\n' := by
      intro hh
      exact h (hh ▸ List.mem_cons_self a as)
    rw [nnMatcher1, if_neg ha]

theorem nnMatcher2_none_of_noNl (t : List Char) (h : '\n' ∉ t) :
    nnMatcher2 t = none := by
  cases t with
  | nil => rfl
  | cons a as =>
    have ha : a ≠ '\n' := by
      intro hh
      exact h (hh ▸ List.mem_cons_self a as)
    rw [nnMatcher2, if_neg ha]

theorem subScan_nn1_id (t : List Char) (h : '\n' ∉ t) :
    subScan nnMatcher1 t.length t = t :=
  subScan_id nnMatcher1 t.length t (Nat.le_refl _)
    (fun n => nnMatcher1_none_of_noNl _ (fun hm => h (List.drop_subset n t hm)))

theorem subScan_nn2_id (t : List Char) (h : '\n' ∉ t) :
    subScan nnMatcher2 t.length t = t :=
  subScan_id nnMatcher2 t.length t (Nat.le_refl _)
    (fun n => nnMatcher2_none_of_noNl _ (fun hm => h (List.drop_subset n t hm)))

theorem takeDigits_none_of_noDigit (n : Nat) (hn : 0 < n) (s : List Char)
    (h : ∀ c ∈ s, isDigitA c = false) : takeDigits n s = none := by
  cases n with
  | zero => cases hn
  | succ n =>
    cases s with
    | nil => rfl
    | cons a as =>
      rw [takeDigits]
      rw [h a (List.mem_cons_self a as)]
      rfl

theorem dateTry_none_of_take_none (d1 d2 : Nat) (s : List Char)
    (h : takeDigits d1 s = none) : dateTry d1 d2 s = none := by
  rw [dateTry, h]

theorem dateMatcher_none_of_noDigit (s : List Char)
    (h : ∀ c ∈ s, isDigitA c = false) : dateMatcher s = none := by
  have h2 : takeDigits 2 s = none := takeDigits_none_of_noDigit 2 (by omega) s h
  have h1 : takeDigits 1 s = none := takeDigits_none_of_noDigit 1 (by omega) s h
  rw [dateMatcher, dateTry_none_of_take_none 2 2 s h2, dateTry_none_of_take_none 2 1 s h2,
    dateTry_none_of_take_none 1 2 s h1, dateTry_none_of_take_none 1 1 s h1]
  rfl

theorem idMatcher_none_of_noDigit (s : List Char)
    (h : ∀ c ∈ s, isDigitA c = false) : idMatcher s = none := by
  have h3 : takeDigits 3 s = none := takeDigits_none_of_noDigit 3 (by omega) s h
  rw [idMatcher, h3]

theorem phoneMatcher_none_of_noDigit (s : List Char)
    (h : ∀ c ∈ s, isDigitA c = false) : phoneMatcher s = none := by
  have hhead : phoneHead s = none := by
    cases s with
    | nil => rfl
    | cons a as =>
      have ha0 : a ≠ '0' := by
        intro hh
        have := h a (List.mem_cons_self a as)
        rw [hh] at this
        simp [isDigitA] at this
      cases as with
      | nil => rw [phoneHead, if_neg ha0]
      | cons b bs =>
        cases bs with
        | nil => rw [phoneHead, if_neg ha0]
        | cons c cs =>
          have hb8 : b ≠ '8' := by
            intro hh
            have := h b (List.mem_cons_of_mem a (List.mem_cons_self b _))
            rw [hh] at this
            simp [isDigitA] at this
          rw [phoneHead, if_neg (by simp [hb8]), if_neg ha0]
  rw [phoneMatcher, hhead]

theorem fix_date_formats_id (t : List Char) (h : ∀ c ∈ t, isDigitA c = false) :
    fix_date_formats t = t := by
  rw [fix_date_formats]
  exact subScan_id dateMatcher t.length t (Nat.le_refl _)
    (fun n => dateMatcher_none_of_noDigit _ (fun c hm => h c (List.drop_subset n t hm)))

theorem fix_numbers_id (t : List Char) (h : ∀ c ∈ t, isDigitA c = false) :
    fix_numbers t = t := by
  rw [fix_numbers]
  have h1 : subScan idMatcher t.length t = t :=
    subScan_id idMatcher t.length t (Nat.le_refl _)
      (fun n => idMatcher_none_of_noDigit _ (fun c hm => h c (List.drop_subset n t hm)))
  rw [h1]
  exact subScan_id phoneMatcher t.length t (Nat.le_refl _)
    (fun n => phoneMatcher_none_of_noDigit _ (fun c hm => h c (List.drop_subset n t hm)))

theorem applyMistakes_id_of_no_keys (s : List Char) (imps : List String)
    (h : ∀ kv ∈ common_mistakes, containsCI s kv.1.data = false) :
    applyMistakes s imps = (s, imps) := by
  rw [applyMistakes]
  have : ∀ L : List (String × String),
      (∀ kv ∈ L, containsCI s kv.1.data = false) →
      List.foldl applyMistake (s, imps) L = (s, imps) := by
    intro L
    induction L with
    | nil => intro _; rfl
    | cons kv rest ih =>
      intro hL
      rw [List.foldl_cons]
      have hg : containsCI s kv.1.data = false := hL kv (List.mem_cons_self kv rest)
      rw [show applyMistake (s, imps) kv = (s, imps) by
        rw [applyMistake]
        simp [hg]]
      exact ih (fun kv2 hm => hL kv2 (List.mem_cons_of_mem kv hm))
  exact this common_mistakes h

theorem finalizeWs_eq (s : List Char) :
    finalizeWs s = pyStrip (collapseWs s) := by
  rw [finalizeWs]
  apply subScan_nn2_id
  intro hmem
  rcases mem_collapseGo s false '\n' (mem_pyStrip _ _ hmem) with h | h
  · exact absurd h (by decide)
  · exact absurd h.2 (by decide)

theorem clean_of_normform (Z : List Char) (y : String)
    (hyz : y.data = pyStrip (collapseWs Z))
    (h1 : ∀ kv ∈ common_mistakes, containsCI y.data kv.1.data = false)
    (h2 : ∀ c ∈ y.data, isDigitA c = false)
    (h3 : noiseSub y.data = y.data) :
    (clean_vietnamese_text y).cleaned_text = y := by
  obtain ⟨hchars, hsep, hhead⟩ := norm_after_finalize Z
  have hF2 : collapseWs (pyStrip (collapseWs Z)) = pyStrip (collapseWs Z) :=
    collapseWs_eq_self_of_norm _ hchars hsep
  have hF1 : pyStrip (pyStrip (collapseWs Z)) = pyStrip (collapseWs Z) :=
    pyStrip_pyStrip _
  have hF3 : Char.ofNat 10 ∉ pyStrip (collapseWs Z) := by
    intro hm
    have := hchars (Char.ofNat 10) hm (by decide)
    exact absurd this (by decide)
  have hF5 : step3Normalize y = y.data := by
    rw [step3Normalize]
    have hT : collapseWs (nfcNormalize (pyStrip y.data)) = y.data := by
      show collapseWs (pyStrip y.data) = y.data
      rw [hyz, hF1, hF2]
    rw [hT, subScan_nn1_id y.data (by rw [hyz]; exact hF3), h3]
  have hformy : (clean_vietnamese_text y).cleaned_text
      = String.mk (finalizeWs (fix_numbers (fix_date_formats (fix_vietnamese_diacritics
          (applyMistakes (step3Normalize y) baseImprovements).1)))) := rfl
  rw [hformy, hF5, applyMistakes_id_of_no_keys _ baseImprovements h1]
  show String.mk (finalizeWs (fix_numbers (fix_date_formats y.data))) = y
  rw [fix_date_formats_id _ h2, fix_numbers_id _ h2, finalizeWs_eq, hyz, hF2, hF1, ← hyz]

/-- Claim C9 (amended): cleaning is idempotent once whitespace has stabilised
(the cleaned output is always in final whitespace-normal form) provided the
CLEANED OUTPUT — not merely the raw input, as the claim states — contains no
substitution key (case-insensitively), no decimal digit, and no character
outside the noise allow-list.  The strengthening is necessary: noise removal
and number joining can create phrases and re-splittable digit groups out of
key-free input, so key-freeness of x alone does not suffice. -/
theorem C9_clean_idempotent_no_keys (x : String)
    (h1 : ∀ kv ∈ common_mistakes,
        containsCI (clean_vietnamese_text x).cleaned_text.data kv.1.data = false)
    (h2 : ∀ c ∈ (clean_vietnamese_text x).cleaned_text.data, isDigitA c = false)
    (h3 : noiseSub (clean_vietnamese_text x).cleaned_text.data
        = (clean_vietnamese_text x).cleaned_text.data) :
    (clean_vietnamese_text (clean_vietnamese_text x).cleaned_text).cleaned_text
      = (clean_vietnamese_text x).cleaned_text := by
  have hrep : (clean_vietnamese_text x).cleaned_text.data
      = pyStrip (collapseWs (fix_numbers (fix_date_formats (fix_vietnamese_diacritics
          (applyMistakes (step3Normalize x) baseImprovements).1)))) := by
    rw [show (clean_vietnamese_text x).cleaned_text
      = String.mk (finalizeWs (fix_numbers (fix_date_formats (fix_vietnamese_diacritics
          (applyMistakes (step3Normalize x) baseImprovements).1)))) from rfl, finalizeWs_eq]
  exact clean_of_normform _ _ hrep h1 h2 h3

/-! ### Facts about the packaged result -/

theorem process_snd (e : Engine) (pok : String → Bool) (lang : String) :
    (process_with_tesseract_multi_approach e pok lang).2
      = (approachLoop e pok (langsFor lang) ⟨none, 0⟩ approaches).2 := by
  cases hb : (approachLoop e pok (langsFor lang) ⟨none, 0⟩ approaches).1.best with
  | none => simp only [process_with_tesseract_multi_approach, hb]
  | some b =>
    simp only [process_with_tesseract_multi_approach, hb]
    split <;> rfl

/-! ### Claim theorems -/

/-- Claim C3: if every external OCR invocation fails (raises, times out, or
returns a non-zero exit code — all modelled by the engine oracle returning
`none`), the sweep still reports success with empty text and confidence 0
rather than propagating an engine error (given the engine was detected at
startup and the image decoded, which is where the model starts). -/
theorem C3_engine_failure_graceful (e : Engine) (pok : String → Bool)
    (lang : String) (h : ∀ a l p, e a l p = none) :
    (process_with_tesseract_multi_approach e pok lang).1.success = true ∧
    (process_with_tesseract_multi_approach e pok lang).1.text = "" ∧
    (process_with_tesseract_multi_approach e pok lang).1.confidence = 0 := by
  have hst : (approachLoop e pok (langsFor lang) ⟨none, 0⟩ approaches).1
      = ⟨none, 0⟩ :=
    approachLoop_state_of_none e pok (langsFor lang) ⟨none, 0⟩ approaches h
  simp only [process_with_tesseract_multi_approach, hst]
  exact ⟨trivial, trivial, trivial⟩

/-- Witness for C3 at the always-failing engine. -/
theorem C3_witness :
    (∀ a l p, engFail a l p = none) ∧
    ((process_with_tesseract_multi_approach engFail (fun _ => true) "vie").1.success = true ∧
     (process_with_tesseract_multi_approach engFail (fun _ => true) "vie").1.text = "" ∧
     (process_with_tesseract_multi_approach engFail (fun _ => true) "vie").1.confidence = 0) :=
  ⟨fun _ _ _ => rfl,
   C3_engine_failure_graceful engFail (fun _ => true) "vie" (fun _ _ _ => rfl)⟩

/-- Claim C4: a request never triggers more than 6 × 2 × 4 = 48 engine
invocations; the languages tried are the requested language followed by the
`eng` fallback, the fallback being skipped when it equals the request, so a
request for `eng` is bounded by 6 × 1 × 4 = 24. -/
theorem C4_invocation_bound :
    ((∀ (e : Engine) (pok : String → Bool) (lang : String),
        ((process_with_tesseract_multi_approach e pok lang).2).length ≤ 48) ∧
     (∀ (e : Engine) (pok : String → Bool),
        ((process_with_tesseract_multi_approach e pok "eng").2).length ≤ 24)) ∧
    ((∀ lang : String, lang ≠ "eng" → langsFor lang = [lang, "eng"]) ∧
      langsFor "eng" = ["eng"]) := by
  refine ⟨⟨?_, ?_⟩, ⟨?_, ?_⟩⟩
  · intro e pok lang
    rw [process_snd]
    have hb := approachLoop_trace_len e pok (langsFor lang) ⟨none, 0⟩ approaches
    have hl := langsFor_len_le lang
    have ha : approaches.length = 6 := rfl
    rw [ha] at hb
    omega
  · intro e pok
    rw [process_snd]
    have hb := approachLoop_trace_len e pok (langsFor "eng") ⟨none, 0⟩ approaches
    have hl : (langsFor "eng").length = 1 := rfl
    have ha : approaches.length = 6 := rfl
    rw [ha, hl] at hb
    omega
  · intro lang hl
    rw [langsFor, if_pos hl]
  · rfl

/-- Witness for C4's conditional conjunct at a concrete non-default
language. -/
theorem C4_witness :
    ("vie" : String) ≠ "eng" ∧ langsFor "vie" = ["vie", "eng"] :=
  ⟨by decide, C4_invocation_bound.2.1 "vie" (by decide)⟩

/-- Claim C2 (amended): crossing the 100-character early-exit threshold does
not stop the entire search.  It only breaks the page-segmentation-mode loop
and the language loop: once the best score exceeds 100, each remaining
preprocessing variant still invokes the engine — at most the four modes of
the first language — and the fallback language is never queried again. -/
theorem C2_early_exit_scope (e : Engine) (pok : String → Bool) (l : String)
    (ls : List String) (st : SweepState) (rest : List String)
    (h : 100 < st.bestScore) :
    ((approachLoop e pok (l :: ls) st rest).2).length ≤ 4 * rest.length ∧
    ∀ inv ∈ (approachLoop e pok (l :: ls) st rest).2, inv.lang = l :=
  approachLoop_after_threshold e pok l ls st rest h

/-- Witness for C2 at a concrete post-threshold state. -/
theorem C2_witness :
    100 < (SweepState.mk none 101).bestScore ∧
    (((approachLoop engFail (fun _ => true) ["vie", "eng"] ⟨none, 101⟩
        ["adaptive"]).2).length ≤ 4 * (["adaptive"] : List String).length ∧
     ∀ inv ∈ (approachLoop engFail (fun _ => true) ["vie", "eng"] ⟨none, 101⟩
        ["adaptive"]).2, inv.lang = "vie") :=
  ⟨by decide,
   C2_early_exit_scope engFail (fun _ => true) "vie" ["eng"] ⟨none, 101⟩
     ["adaptive"] (by decide)⟩

/-- Counterexample to claim C2 as stated: with an engine whose very first
invocation returns 151 characters (beyond the threshold), the sweep still
makes 20 further engine invocations (4 modes for each of the 5 remaining
preprocessing variants), for a trace of 21 — the claim would require the
trace to stop at 1. -/
theorem C2_counterexample :
    ((attemptTexts ((process_with_tesseract_multi_approach engLong
        (fun _ => true) "eng").2)).any (fun t => 100 < t.length) = true) ∧
    ((process_with_tesseract_multi_approach engLong (fun _ => true) "eng").2).length
      = 21 := by
  constructor
  · rfl
  · rfl

/-- Claim C1 (amended): whenever the first maximal-length attempt text is at
least 2 characters long, the sweep returns exactly that text — the attempt
with maximal stripped-text length over all combinations actually tried, ties
broken by enumeration order (variant outermost, then language, then mode)
because the comparison is strict.  Below 2 characters the winner is discarded
and empty text is returned instead. -/
theorem C1_first_best_of_tried (e : Engine) (pok : String → Bool) (lang : String)
    (h : 2 ≤ olen (firstBest (attemptTexts
        ((process_with_tesseract_multi_approach e pok lang).2)))) :
    (process_with_tesseract_multi_approach e pok lang).1.text
      = (firstBest (attemptTexts
          ((process_with_tesseract_multi_approach e pok lang).2))).getD "" := by
  have hinv : InvFB (approachLoop e pok (langsFor lang) ⟨none, 0⟩ approaches).1
      ((attemptTexts (approachLoop e pok (langsFor lang) ⟨none, 0⟩
          approaches).2).foldl stepFB none) :=
    approachLoop_inv e pok (langsFor lang) ⟨none, 0⟩ approaches none
      ⟨rfl, fun h0 => absurd h0 (Nat.lt_irrefl 0), fun _ => rfl⟩
  rw [process_snd, firstBest] at h ⊢
  obtain ⟨hsc, hpos, _⟩ := hinv
  have hscore : 2 ≤ (approachLoop e pok (langsFor lang) ⟨none, 0⟩
      approaches).1.bestScore := by
    rw [hsc]
    exact h
  have hmap := hpos (by omega)
  cases hb : (approachLoop e pok (langsFor lang) ⟨none, 0⟩ approaches).1.best with
  | none =>
    rw [hb] at hmap
    rw [← hmap] at h
    simp [olen] at h
  | some b =>
    rw [hb] at hmap
    have hres : (process_with_tesseract_multi_approach e pok lang).1.text
        = b.text := by
      simp only [process_with_tesseract_multi_approach, hb]
      rw [if_pos hscore]
    rw [hres, ← hmap]
    rfl

/-- Witness for C1 at an engine whose best attempt is "abc". -/
theorem C1_witness :
    2 ≤ olen (firstBest (attemptTexts
        ((process_with_tesseract_multi_approach engAbc (fun _ => true) "eng").2))) ∧
    (process_with_tesseract_multi_approach engAbc (fun _ => true) "eng").1.text
      = (firstBest (attemptTexts
          ((process_with_tesseract_multi_approach engAbc (fun _ => true)
            "eng").2))).getD "" :=
  ⟨by decide, C1_first_best_of_tried engAbc (fun _ => true) "eng" (by decide)⟩

/-- Counterexample to claim C1 as stated: with an engine that always returns
the single character "a", the first maximal-length attempt text is "a", yet
the sweep returns "" because the best score 1 falls below the hard-coded
`best_score >= 2` floor applied before packaging the result. -/
theorem C1_counterexample :
    (process_with_tesseract_multi_approach engShort (fun _ => true) "eng").1.text
      = "" ∧
    firstBest (attemptTexts
        ((process_with_tesseract_multi_approach engShort (fun _ => true)
          "eng").2)) = some "a" ∧
    ("" : String) ≠ "a" :=
  ⟨rfl, rfl, by decide⟩

/-- Witness for C9 on an already-stable cleaned output. -/
theorem C9_witness :
    (∀ kv ∈ common_mistakes,
        containsCI (clean_vietnamese_text "xin chao").cleaned_text.data
          kv.1.data = false) ∧
    (∀ c ∈ (clean_vietnamese_text "xin chao").cleaned_text.data,
        isDigitA c = false) ∧
    (noiseSub (clean_vietnamese_text "xin chao").cleaned_text.data
        = (clean_vietnamese_text "xin chao").cleaned_text.data) ∧
    (clean_vietnamese_text
        (clean_vietnamese_text "xin chao").cleaned_text).cleaned_text
      = (clean_vietnamese_text "xin chao").cleaned_text :=
  ⟨by decide, by decide, by decide,
   C9_clean_idempotent_no_keys "xin chao" (by decide) (by decide) (by decide)⟩

/-- Counterexample to claim C9 as stated: two inputs containing no dictionary
key case-insensitively on which cleaning the cleaned output changes it again.
"Noi##cap" becomes "Noi cap" (noise characters turn into spaces), which on the
second pass matches a dictionary phrase; "222 33444 555 666 777" has its tail
joined to "222 33444555666777" on the first pass, and the join re-matches on
the second pass. -/
theorem C9_counterexample :
    ((∀ kv ∈ common_mistakes,
        containsCI ("Noi##cap".data) kv.1.data = false) ∧
      (clean_vietnamese_text
          (clean_vietnamese_text "Noi##cap").cleaned_text).cleaned_text
        ≠ (clean_vietnamese_text "Noi##cap").cleaned_text) ∧
    ((∀ kv ∈ common_mistakes,
        containsCI ("222 33444 555 666 777".data) kv.1.data = false) ∧
      (clean_vietnamese_text
          (clean_vietnamese_text "222 33444 555 666 777").cleaned_text).cleaned_text
        ≠ (clean_vietnamese_text "222 33444 555 666 777").cleaned_text) := by
  exact ⟨⟨by decide, by decide⟩, ⟨by decide, by decide⟩⟩

/-- Claim C5 is refuted by the code: on the spec\x27s own example input
"001 234 567 890", the unconditional dictionary entries \x270\x27 → \x27O\x27
and \x271\x27 → \x27I\x27 run before digit-group joining, so the cleaned text
is "OOI 234 567 89O" and the contiguous run "001234567890" never appears. -/
theorem C5_id_join_broken :
    (clean_vietnamese_text "001 234 567 890").cleaned_text = "OOI 234 567 89O" ∧
    containsStr (clean_vietnamese_text "001 234 567 890").cleaned_text.data
      ("001234567890".data) = false := by
  exact ⟨by decide, by decide⟩

/-- Claim C6 is refuted by the code: on the spec\x27s own example input
"01-02-2023", the dictionary entries \x270\x27 → \x27O\x27 and
\x271\x27 → \x27I\x27 destroy every digit 0 and 1 before date normalization
runs, so the cleaned text is "OI-O2-2O23" and "01/02/2023" never appears;
the date regex no longer matches at all. -/
theorem C6_date_normalize_broken :
    (clean_vietnamese_text "01-02-2023").cleaned_text = "OI-O2-2O23" ∧
    containsStr (clean_vietnamese_text "01-02-2023").cleaned_text.data
      ("01/02/2023".data) = false := by
  exact ⟨by decide, by decide⟩

/-- Claim C7 is refuted by the code: the dictionary value stored for the key
"Ha Noi" is not the accented form "Hà Nội" but the mojibake byte sequence
"H√† N·ªôi" (the UTF-8 bytes of "Hà Nội" mis-decoded), so the cleaned text of
"Ha Noi" contains that mojibake and never the accented form. -/
theorem C7_substitution_mojibake :
    (clean_vietnamese_text "Ha Noi").cleaned_text
      = "H√† N·ªôi" ∧
    containsStr (clean_vietnamese_text "Ha Noi").cleaned_text.data
      ("Hà Nội".data) = false := by
  exact ⟨by decide, by decide⟩

/-- Claim C8 (amended): cleaning is total — it is a function defined on every
string, echoing the input back in the result — and on the empty string it
returns empty cleaned text; but the applied-steps list is NOT empty: the five
unconditional stage-log entries are always recorded, even when nothing
changed. -/
theorem C8_empty_input_total :
    (∀ x : String, (clean_vietnamese_text x).original_text = x) ∧
    (clean_vietnamese_text "").cleaned_text = "" ∧
    (clean_vietnamese_text "").improvements =
      ["Unicode normalization applied",
       "Removed noise characters and normalized spacing",
       "Vietnamese diacritics correction applied",
       "Date formats normalized",
       "Number formats normalized"] :=
  ⟨fun _ => rfl, rfl, rfl⟩

/-- Counterexample to claim C8 as stated: the applied-steps list on the empty
string is not empty. -/
theorem C8_counterexample :
    (clean_vietnamese_text "").improvements ≠ [] := by
  decide

/-- Claim C10: the substitution dictionary really contains the unconditional
character-level entries \x27rn\x27 → \x27m\x27, \x27cl\x27 → \x27d\x27,
\x270\x27 → \x27O\x27 and \x271\x27 → \x27I\x27; they are applied to every
input (witnessed by the zero-vs-one elimination law holding for ALL inputs and
by a concrete rn/cl joint rewrite), and the dictionary pass runs before date
and number normalization in the pipeline. -/
theorem C10_unconditional_char_entries :
    ((("rn", "m") ∈ common_mistakes ∧ ("cl", "d") ∈ common_mistakes ∧
      ("0", "O") ∈ common_mistakes ∧ ("1", "I") ∈ common_mistakes) ∧
     (applyMistakes ("rn cl rn".data) []).1 = "m d m".data) ∧
    (∀ (s : List Char) (imps : List String),
      '0' ∉ (applyMistakes s imps).1 ∧ '1' ∉ (applyMistakes s imps).1) ∧
    (∀ x : String, (clean_vietnamese_text x).cleaned_text
      = String.mk (finalizeWs (fix_numbers (fix_date_formats
          (fix_vietnamese_diacritics
            (applyMistakes (step3Normalize x) baseImprovements).1))))) :=
  ⟨⟨by decide, by decide⟩, fun s imps => applyMistakes_no01 s imps, fun _ => rfl⟩
